import Mathlib

/-!
# Verification of the opencode-patcher-tools patch engine

A shallow embedding of `tools/apply-all-patches.ts` (the YAML-configured
version): the content verifier (`checkPatchApplied`), the patch applier
(`applyPatch`), the dependency resolver (`resolveDependencies`), the
batch driver (`applyPatches`) and the registry mutations
(`enablePatch` / `disablePatch`).

External effects are modelled explicitly:

* the target tree is a map from file paths to a `FileState`
  (missing / unreadable / readable content), standing for the files the
  script reads through `grep`;
* `grep -q <pat> <file>` is abstracted by a pattern matcher
  `mat : String → String → Bool` applied to the contents of a readable
  file; a missing or unreadable file makes the `grep` invocation exit
  non-zero, which the script observes as a thrown exception;
* `git apply --check` is a pure predicate on the tree (it never mutates);
* `git apply` returns a success flag and the resulting tree (on failure
  the tree it leaves behind may in principle differ, which is exactly the
  situation the script's catch-handler re-checks for);
* `process.exit(1)` inside the resolver is modelled by `Except.error`;
* the unbounded recursion of `resolveDependencies` is modelled with a
  fuel parameter; exhausted fuel (`none`) stands for non-termination and
  is proved unreachable for the fuel used at the call site.
-/

namespace PatcherTools

/-- One `{path, patterns}` entry of a patch's `checkApplied.files` list
(interface `PatchCheckFile` in the source). -/
structure PatchCheckFile where
  path : String
  patterns : List String
deriving DecidableEq, Repr

/-- The `checkApplied` block of a patch (interface `PatchCheck`):
a `type` tag (always `"grep"` in well-typed configurations) and the
file/pattern entries. -/
structure PatchCheck where
  type : String
  files : List PatchCheckFile
deriving DecidableEq, Repr

/-- One patch record of `patches.config.yaml` (interface `PatchConfig`). -/
structure PatchConfig where
  id : String
  name : String
  file : String
  description : String
  category : String
  enabled : Bool
  dependencies : List String
  checkApplied : PatchCheck
deriving DecidableEq, Repr

/-- A category record (interface `CategoryConfig`). -/
structure CategoryConfig where
  name : String
  description : String
deriving DecidableEq, Repr

/-- The loaded configuration document (interface `Config`). -/
structure Config where
  patches : List PatchConfig
  categories : List (String × CategoryConfig)
deriving DecidableEq, Repr

/-- State of one file of the target tree as `grep` sees it. -/
inductive FileState
  | missing
  | unreadable
  | readable (content : String)
deriving DecidableEq, Repr

/-- The target tree: file path ↦ file state. -/
def Tree : Type := String → FileState

/-- Success of one `grep -q <pat> <file>` invocation: the file must be
readable and the pattern matcher must accept its contents.  A missing or
unreadable file exits non-zero (observed by the script as a thrown
exception, i.e. `false` here). -/
def grepOk (mat : String → String → Bool) (fs : FileState) (pat : String) : Bool :=
  match fs with
  | .readable content => mat pat content
  | _ => false

/-- All required patterns of one `checkApplied.files` entry succeed
(the inner `for (const pattern of file.patterns)` loop of
`checkPatchApplied`; an empty pattern list runs no `grep` at all). -/
def fileOk (mat : String → String → Bool) (tree : Tree) (f : PatchCheckFile) : Bool :=
  f.patterns.all (fun pat => grepOk mat (tree f.path) pat)

/-- `checkPatchApplied(patch)` of the source: reject non-`grep` check
types, otherwise every pattern of every declared file entry must be
present; any failing `grep` short-circuits to `false` via the
`try/catch`. -/
def checkPatchApplied (mat : String → String → Bool) (tree : Tree)
    (patch : PatchConfig) : Bool :=
  if patch.checkApplied.type != "grep" then false
  else patch.checkApplied.files.all (fun f => fileOk mat tree f)

/-- The external capabilities `applyPatch` consumes: the pattern matcher
used by `grep`, existence of the patch artifact on disk
(`existsSync(join(PATCHES_DIR, patch.file))`), existence of the
`opencode/` working-tree directory (`existsSync(OPENCODE_DIR)`),
the dry run `git apply --check` (pure, never mutates) and the real
`git apply` (returns a success flag and the tree it leaves behind). -/
structure ApplyEnv where
  mat : String → String → Bool
  artifactOnDisk : String → Bool
  dirOnDisk : Bool
  dryRun : Tree → String → Bool
  applyArtifact : Tree → String → Bool × Tree

/-- The distinct return sites of the source's `applyPatch`, in source
order.  `alreadySatisfied` is the pre-check `return true`;
`artifactMissing` / `dirMissing` are the two `return false` guards;
`applied` is the `return true` at the end of the `try` block;
`satisfiedAfterError` is the `return true` inside the `catch` after the
verifier re-check; `failed` is the final `return false` of the `catch`.
`success` recovers the boolean the source actually returns. -/
inductive ApplyOutcome
  | alreadySatisfied
  | artifactMissing
  | dirMissing
  | applied
  | satisfiedAfterError
  | failed
deriving DecidableEq, Repr

def ApplyOutcome.success : ApplyOutcome → Bool
  | .alreadySatisfied => true
  | .artifactMissing => false
  | .dirMissing => false
  | .applied => true
  | .satisfiedAfterError => true
  | .failed => false

/-- `applyPatch(patch)` of the source, together with the tree state it
leaves behind.  The `try` block runs `git apply --check` then
`git apply`; a failure of either lands in the `catch`, which re-runs
`checkPatchApplied` on whatever tree the failed command left. -/
def applyPatch (env : ApplyEnv) (tree : Tree) (patch : PatchConfig) :
    ApplyOutcome × Tree :=
  if checkPatchApplied env.mat tree patch then (.alreadySatisfied, tree)
  else if !env.artifactOnDisk patch.file then (.artifactMissing, tree)
  else if !env.dirOnDisk then (.dirMissing, tree)
  else if env.dryRun tree patch.file then
    let res := env.applyArtifact tree patch.file
    if res.1 then (.applied, res.2)
    else if checkPatchApplied env.mat res.2 patch then (.satisfiedAfterError, res.2)
    else (.failed, res.2)
  else
    if checkPatchApplied env.mat tree patch then (.satisfiedAfterError, tree)
    else (.failed, tree)

/-- The two `process.exit(1)` sites of `resolveDependencies`:
`Circular dependency detected: <id>` and `Patch not found: <id>`. -/
inductive RErr
  | circular (id : String)
  | notFound (id : String)
deriving DecidableEq, Repr

/-- The `for (const depId of patch.dependencies)` loop of
`resolveDependencies`: resolve each dependency in declared order,
threading the shared `resolved` set and concatenating the emitted
orders.  `rec` is the recursive call at the current recursion depth. -/
def resolveListWith
    (rec : String → List String → List String →
      Option (Except RErr (List String × List String))) :
    List String → List String → List String →
      Option (Except RErr (List String × List String))
  | [], resolved, _ => some (.ok ([], resolved))
  | depId :: rest, resolved, visiting =>
    match rec depId resolved visiting with
    | none => none
    | some (.error e) => some (.error e)
    | some (.ok (order1, resolved1)) =>
      match resolveListWith rec rest resolved1 visiting with
      | none => none
      | some (.error e) => some (.error e)
      | some (.ok (order2, resolved2)) => some (.ok (order1 ++ order2, resolved2))

/-- `resolveDependencies(patches, patchId, resolved, visiting)` of the
source.  The shared mutable sets are threaded explicitly: the result
carries the emitted order and the updated `resolved` set; `visiting` is
extended for the recursive calls and implicitly restored on return
(matching `visiting.add` / `visiting.delete`).  `fuel` bounds the
recursion depth; `none` models a recursion that would not return. -/
def resolveDeps (patches : List PatchConfig) (fuel : Nat) :
    String → List String → List String →
      Option (Except RErr (List String × List String)) :=
  match fuel with
  | 0 => fun _ _ _ => none
  | Nat.succ fuel1 => fun patchId resolved visiting =>
    if resolved.contains patchId then some (.ok ([], resolved))
    else if visiting.contains patchId then some (.error (.circular patchId))
    else
      match patches.find? (fun p => p.id == patchId) with
      | none => some (.error (.notFound patchId))
      | some patch =>
        match resolveListWith (resolveDeps patches fuel1) patch.dependencies
            resolved (patchId :: visiting) with
        | none => none
        | some (.error e) => some (.error e)
        | some (.ok (order, resolved2)) =>
          some (.ok (order ++ [patchId], patchId :: resolved2))

/-- Number of declared ids not yet on the `visiting` stack: the measure
that bounds the recursion depth of `resolveDependencies`. -/
def freshCount (patches : List PatchConfig) (visiting : List String) : Nat :=
  (((patches.map (fun p => p.id)).dedup).filter
    (fun i => !visiting.contains i)).length

/-- A top-level `resolveDependencies(config.patches, patch.id, resolved)`
call (default `visiting = new Set()`), run with enough fuel for the
deepest possible recursion; the `none` branch is dead code
(see `resolveDeps_total`). -/
def resolveTop (patches : List PatchConfig) (patchId : String)
    (resolved : List String) : Except RErr (List String × List String) :=
  match resolveDeps patches (patches.length + 1) patchId resolved [] with
  | some r => r
  | none => .error (.circular patchId)

/-- The `if (!applyOrder.includes(depId)) applyOrder.push(depId)`
accumulation of `applyPatches`. -/
def dedupAppend (acc : List String) : List String → List String
  | [] => acc
  | x :: xs => dedupAppend (if acc.contains x then acc else acc ++ [x]) xs

/-- The `for (const patch of patchesToApply)` resolution loop of
`applyPatches`: one `resolveDependencies` call per requested id, the
`resolved` set shared across calls, results accumulated into
`applyOrder` with the `includes` guard. -/
def computeOrderAux (patches : List PatchConfig) :
    List String → List String → List String →
      Except RErr (List String × List String)
  | [], acc, resolved => .ok (acc, resolved)
  | r :: rest, acc, resolved =>
    match resolveTop patches r resolved with
    | .error e => .error e
    | .ok (deps, resolved2) => computeOrderAux patches rest (dedupAppend acc deps) resolved2

/-- The full apply order `applyPatches` computes for a requested id
list. -/
def computeApplyOrder (patches : List PatchConfig) (requested : List String) :
    Except RErr (List String) :=
  match computeOrderAux patches requested [] [] with
  | .error e => .error e
  | .ok (order, _) => .ok order

/-- The candidate filter at the top of `applyPatches`: keep a patch
unless the category option excludes it, or it is disabled and `--all`
was not given. -/
def filterPatches (config : Config) (category : Option String) (all : Bool) :
    List PatchConfig :=
  config.patches.filter (fun p =>
    (match category with
     | some c => p.category == c
     | none => true) && (all || p.enabled))

/-- The `for (const patchId of applyOrder)` apply loop of
`applyPatches`: look each id up (silently skipping unknown ids, the
`if (!patch) continue`), apply, and collect the boolean results while
the tree evolves. -/
def runPatches (env : ApplyEnv) (patches : List PatchConfig) :
    List String → Tree → List Bool × Tree
  | [], tree => ([], tree)
  | pid :: rest, tree =>
    match patches.find? (fun p => p.id == pid) with
    | none => runPatches env patches rest tree
    | some p =>
      let step := applyPatch env tree p
      let next := runPatches env patches rest step.2
      (step.1.success :: next.1, next.2)

/-- `applyPatches(config, options)` end to end: filter, resolve
(`process.exit(1)` on resolver errors → `Except.error`), apply in
order, and report overall success (`false` models the final
`process.exit(1)` when at least one patch failed).  An empty candidate
set returns immediately (`"No patches to apply"`). -/
def applyPatches (env : ApplyEnv) (config : Config) (category : Option String)
    (all : Bool) (tree : Tree) : Except RErr (List Bool × Tree × Bool) :=
  let toApply := filterPatches config category all
  if toApply.isEmpty then .ok ([], tree, true)
  else
    match computeApplyOrder config.patches (toApply.map (fun p => p.id)) with
    | .error e => .error e
    | .ok order =>
      let run := runPatches env config.patches order tree
      .ok (run.1, run.2, (run.1.filter (fun r => !r)).length == 0)

/-- Result of `enablePatch` / `disablePatch`.  `notFound` is the
`process.exit(1)` for an unknown id, `alreadyInState` the informational
early return (no save), `refused` the `process.exit(1)` listing the
enabled dependents (no save), and `saved` carries the patch list that
`saveConfig` persists. -/
inductive ToggleResult
  | notFound
  | alreadyInState
  | refused (dependents : List String)
  | saved (patches2 : List PatchConfig)
deriving DecidableEq, Repr

/-- Set the `enabled` flag of the first patch with the given id
(`config.patches.find(...)` returns the first match, which the source
mutates in place). -/
def setEnabledFirst : List PatchConfig → String → Bool → List PatchConfig
  | [], _, _ => []
  | p :: ps, pid, b =>
    if p.id == pid then
      ⟨p.id, p.name, p.file, p.description, p.category, b,
        p.dependencies, p.checkApplied⟩ :: ps
    else p :: setEnabledFirst ps pid b

/-- `enablePatch(config, patchId)` of the source. -/
def enablePatch (config : Config) (patchId : String) : ToggleResult :=
  match config.patches.find? (fun p => p.id == patchId) with
  | none => .notFound
  | some p =>
    if p.enabled then .alreadyInState
    else .saved (setEnabledFirst config.patches patchId true)

/-- `disablePatch(config, patchId)` of the source: unknown id is fatal,
an already-disabled patch is an informational no-op, and if any
currently enabled patch lists the id among its dependencies the
operation is refused listing those dependents; only otherwise is the
flag cleared and the document saved. -/
def disablePatch (config : Config) (patchId : String) : ToggleResult :=
  match config.patches.find? (fun p => p.id == patchId) with
  | none => .notFound
  | some p =>
    if !p.enabled then .alreadyInState
    else
      let dependents := config.patches.filter
        (fun q => q.enabled && q.dependencies.contains patchId)
      if dependents.length > 0 then .refused (dependents.map (fun q => q.id))
      else .saved (setEnabledFirst config.patches patchId false)

/-- The dependency declaration of an id: the `dependencies` list of the
first declared patch carrying it (empty for undeclared ids). -/
def depsOf (patches : List PatchConfig) (x : String) : List String :=
  match patches.find? (fun p => p.id == x) with
  | some p => p.dependencies
  | none => []

/-- One edge of the dependency relation: `y` is a declared dependency of
`x`. -/
def DepStep (patches : List PatchConfig) (x y : String) : Prop :=
  y ∈ depsOf patches x

/-- Reachability through the dependency relation (reflexive-transitive). -/
def Reach (patches : List PatchConfig) (x y : String) : Prop :=
  Relation.ReflTransGen (DepStep patches) x y

/-- `x` occurs as the id of a declared patch. -/
def Declared (patches : List PatchConfig) (x : String) : Prop :=
  ∃ p ∈ patches, p.id = x

/-- Every dependency of an element of `order` occurs either in `base`
(already emitted earlier) or strictly before it inside `order`. -/
def DepsBefore (patches : List PatchConfig) (base order : List String) : Prop :=
  ∀ l1 x l2, order = l1 ++ x :: l2 → ∀ d ∈ depsOf patches x, d ∈ base ∨ d ∈ l1

/-- Everything a successful `resolveDependencies` call (`roots` the
single requested id) or a successful dependency loop (`roots` the
dependency list) guarantees about the order it emits and the `resolved`
set it returns. -/
structure ROut (patches : List PatchConfig)
    (roots resolved visiting order resolved2 : List String) : Prop where
  resolvedEq : ∀ y, y ∈ resolved2 ↔ y ∈ order ∨ y ∈ resolved
  nodup : order.Nodup
  freshRes : ∀ y ∈ order, y ∉ resolved
  freshVis : ∀ y ∈ order, y ∉ visiting
  rootsIn : ∀ r ∈ roots, r ∈ resolved2
  before : DepsBefore patches resolved order
  reach : ∀ y ∈ order, ∃ r ∈ roots, Reach patches r y
  decl : ∀ y ∈ order, Declared patches y

/-- `S` is closed under the dependency relation. -/
def Closed (patches : List PatchConfig) (S : List String) : Prop :=
  ∀ x ∈ S, ∀ d ∈ depsOf patches x, d ∈ S

/-- `x` is a declared dependency of the head of the stack (trivial for
an empty stack). -/
def HeadLink (patches : List PatchConfig) (x : String) : List String → Prop
  | [] => True
  | v :: _ => x ∈ depsOf patches v

/-- Each element of the `visiting` stack is a declared dependency of the
element below it. -/
def ChainR (patches : List PatchConfig) : List String → Prop
  | [] => True
  | v :: rest => HeadLink patches v rest ∧ ChainR patches rest

/-- `d` occurs strictly before `x` in `order`. -/
def MemBefore (order : List String) (d x : String) : Prop :=
  ∃ l1 l2, order = l1 ++ x :: l2 ∧ d ∈ l1

/-! ## Concrete scenarios

Small configurations, trees and environments used to witness the claim
theorems and to refute the parts of the specification the code does not
satisfy.  `eqMat` abstracts `grep -q` as exact-content match, which is a
legitimate instance of the abstract pattern matcher; the `demoEnv`
`git` capabilities implement a diff rewriting `foo` to `bar` in
`target.txt`, while the verification pattern of `demoPatch` demands
`baz` — a stale patch artifact. -/

def eqMat : String → String → Bool := fun pat content => pat == content

def demoCheck : PatchCheck := ⟨"grep", [⟨"target.txt", ["baz"]⟩]⟩

def demoPatch : PatchConfig :=
  ⟨"demo", "Demo", "demo.patch", "a stale demo patch", "core", true, [],
    demoCheck⟩

def treeFoo : Tree :=
  fun path => if path == "target.txt" then .readable "foo" else .missing

def treeBar : Tree :=
  fun path => if path == "target.txt" then .readable "bar" else .missing

def treeBaz : Tree :=
  fun path => if path == "target.txt" then .readable "baz" else .missing

/-- `git` behaviour of a diff `foo` → `bar`: the dry run succeeds
exactly on trees whose target reads `foo`, and the real application
rewrites the target to `bar`. -/
def demoEnv : ApplyEnv :=
  ⟨eqMat, fun _ => true, true,
    fun tr _ =>
      match tr "target.txt" with
      | .readable c => c == "foo"
      | _ => false,
    fun tr _ =>
      match tr "target.txt" with
      | .readable c => if c == "foo" then (true, treeBar) else (false, tr)
      | _ => (false, tr)⟩

/-- An environment whose real `git apply` fails while nonetheless
leaving the expected content behind — the situation the catch-handler
re-check of `applyPatch` exists for. -/
def flakyEnv : ApplyEnv :=
  ⟨eqMat, fun _ => true, true, fun _ _ => true, fun _ _ => (false, treeBaz)⟩

/-- A check entry with an empty pattern list: its target file is never
consulted by the `grep` loop. -/
def emptyPatternsPatch : PatchConfig :=
  ⟨"p9", "P9", "p9.patch", "", "core", true, [],
    ⟨"grep", [⟨"absent.txt", []⟩]⟩⟩

def missingTree : Tree := fun _ => .missing

/-- Registry with a disabled patch `a` that is a prerequisite of the
enabled patch `b`. -/
def patchA : PatchConfig :=
  ⟨"a", "A", "a.patch", "", "core", false, [], ⟨"grep", []⟩⟩

def patchB : PatchConfig :=
  ⟨"b", "B", "b.patch", "", "core", true, ["a"], ⟨"grep", []⟩⟩

def demoConfig : Config := ⟨[patchA, patchB], []⟩

/-- Registry with the dependency cycle a → b → a. -/
def cycA : PatchConfig :=
  ⟨"a", "A", "a.patch", "", "core", true, ["b"], ⟨"grep", []⟩⟩

def cycB : PatchConfig :=
  ⟨"b", "B", "b.patch", "", "core", true, ["a"], ⟨"grep", []⟩⟩

def cycPatches : List PatchConfig := [cycA, cycB]

/-- Registry for the batch-driver witness: `f` will fail (its artifact
is missing on disk), `s` is already satisfied on `treeBaz`. -/
def failPatch : PatchConfig :=
  ⟨"f", "F", "f.patch", "", "core", true, [],
    ⟨"grep", [⟨"target.txt", ["nope"]⟩]⟩⟩

def okPatch : PatchConfig :=
  ⟨"s", "S", "s.patch", "", "core", true, [],
    ⟨"grep", [⟨"target.txt", ["baz"]⟩]⟩⟩

def batchConfig : Config := ⟨[failPatch, okPatch], []⟩

def batchEnv : ApplyEnv :=
  ⟨eqMat, fun _ => false, true, fun _ _ => false, fun tr _ => (false, tr)⟩

/-- Registry for the enable/disable witness: `y` is enabled and depends
on the enabled patch `x`. -/
def basePatch : PatchConfig :=
  ⟨"x", "X", "x.patch", "", "core", true, [], ⟨"grep", []⟩⟩

def depPatch : PatchConfig :=
  ⟨"y", "Y", "y.patch", "", "core", true, ["x"], ⟨"grep", []⟩⟩

def toggleConfig : Config := ⟨[basePatch, depPatch], []⟩

/-! ## Basic list lemmas -/

lemma filter_length_mono {α : Type} (p q : α → Bool)
    (hpq : ∀ x, q x = true → p x = true) :
    ∀ l : List α, (l.filter q).length ≤ (l.filter p).length := by
  intro l
  induction l with
  | nil => simp
  | cons x xs ih =>
    by_cases hq : q x = true
    · simp [List.filter_cons, hq, hpq x hq]
      omega
    · have hq2 : q x = false := by simpa using hq
      by_cases hp : p x = true
      · simp [List.filter_cons, hq2, hp]
        omega
      · have hp2 : p x = false := by simpa using hp
        simpa [List.filter_cons, hq2, hp2] using ih

lemma filter_length_strict {α : Type} (p q : α → Bool)
    (hpq : ∀ x, q x = true → p x = true) :
    ∀ l : List α, ∀ a ∈ l, p a = true → q a = false →
      (l.filter q).length < (l.filter p).length := by
  intro l
  induction l with
  | nil => intro a ha; simp at ha
  | cons x xs ih =>
    intro a ha hpa hqa
    rcases List.mem_cons.1 ha with rfl | hmem
    · have hle := filter_length_mono p q hpq xs
      simp [List.filter_cons, hqa, hpa]
      omega
    · by_cases hq : q x = true
      · have := ih a hmem hpa hqa
        simp [List.filter_cons, hq, hpq x hq]
        omega
      · have hq2 : q x = false := by simpa using hq
        have := ih a hmem hpa hqa
        by_cases hp : p x = true
        · simp [List.filter_cons, hq2, hp]
          omega
        · have hp2 : p x = false := by simpa using hp
          simpa [List.filter_cons, hq2, hp2] using this

/-! ## Termination of the resolver

`resolveDependencies` recurses only after pushing a declared, not yet
visiting id onto `visiting`, so the number of declared ids not on the
stack strictly decreases with each nesting level: fuel exceeding that
number can never run out. -/

lemma freshCount_cons_lt (patches : List PatchConfig) (visiting : List String)
    (pid : String) (hdecl : pid ∈ patches.map (fun p => p.id))
    (hvis : pid ∉ visiting) :
    freshCount patches (pid :: visiting) < freshCount patches visiting := by
  unfold freshCount
  apply filter_length_strict (a := pid)
  · intro x hx
    simp only [Bool.not_eq_true', List.contains_cons, Bool.or_eq_false_iff] at hx
    simp only [Bool.not_eq_true']
    exact hx.2
  · exact List.mem_dedup.2 hdecl
  · simp [hvis]
  · simp

lemma freshCount_le (patches : List PatchConfig) (visiting : List String) :
    freshCount patches visiting ≤ patches.length := by
  unfold freshCount
  calc (((patches.map (fun p => p.id)).dedup).filter
          (fun i => !visiting.contains i)).length
      ≤ ((patches.map (fun p => p.id)).dedup).length := List.length_filter_le _ _
    _ ≤ (patches.map (fun p => p.id)).length :=
        (List.dedup_sublist _).length_le
    _ = patches.length := List.length_map _ _

lemma find?_id_mem {patches : List PatchConfig} {pid : String} {patch : PatchConfig}
    (h : patches.find? (fun p => p.id == pid) = some patch) :
    patch.id = pid ∧ pid ∈ patches.map (fun p => p.id) := by
  have h1 := List.find?_some h
  have h2 : patch ∈ patches := List.mem_of_find?_eq_some h
  have h3 : patch.id = pid := by simpa using h1
  exact ⟨h3, by simpa [h3] using List.mem_map_of_mem (fun p => p.id) h2⟩

lemma resolveListWith_total (patches : List PatchConfig) (fuel : Nat)
    (hD : ∀ pid res vis, freshCount patches vis < fuel →
      resolveDeps patches fuel pid res vis ≠ none) :
    ∀ deps res vis, freshCount patches vis < fuel →
      resolveListWith (resolveDeps patches fuel) deps res vis ≠ none := by
  intro deps
  induction deps with
  | nil => intro res vis _; simp [resolveListWith]
  | cons d rest ih =>
    intro res vis hlt
    have hd := hD d res vis hlt
    unfold resolveListWith
    cases hmatch : resolveDeps patches fuel d res vis with
    | none => exact absurd hmatch hd
    | some v =>
      cases v with
      | error e => simp [hmatch]
      | ok pr =>
        have hrest := ih pr.2 vis hlt
        cases hmatch2 : resolveListWith (resolveDeps patches fuel) rest pr.2 vis with
        | none => exact absurd hmatch2 hrest
        | some w =>
          cases w with
          | error e => simp [hmatch, hmatch2]
          | ok pr2 => simp [hmatch, hmatch2]

/-- Unfolding equation for `resolveDeps` at positive fuel. -/
lemma resolveDeps_succ (patches : List PatchConfig) (fuel1 : Nat) (pid : String)
    (res vis : List String) :
    resolveDeps patches (Nat.succ fuel1) pid res vis =
      (if res.contains pid then some (.ok ([], res))
       else if vis.contains pid then some (.error (.circular pid))
       else
         match patches.find? (fun p => p.id == pid) with
         | none => some (.error (.notFound pid))
         | some patch =>
           match resolveListWith (resolveDeps patches fuel1) patch.dependencies
               res (pid :: vis) with
           | none => none
           | some (.error e) => some (.error e)
           | some (.ok (order, resolved2)) =>
             some (.ok (order ++ [pid], pid :: resolved2))) := rfl

lemma resolveDeps_fueled_total (patches : List PatchConfig) :
    ∀ fuel pid res vis, freshCount patches vis < fuel →
      resolveDeps patches fuel pid res vis ≠ none := by
  intro fuel
  induction fuel with
  | zero => intro pid res vis h; omega
  | succ fuel1 ih =>
    intro pid res vis hlt
    rw [resolveDeps_succ]
    by_cases hres : pid ∈ res
    · simp [hres]
    · by_cases hvis : pid ∈ vis
      · simp [hres, hvis]
      · cases hfind : patches.find? (fun p => p.id == pid) with
        | none => simp [hres, hvis, hfind]
        | some patch =>
          have hmem := (find?_id_mem hfind).2
          have hlt2 : freshCount patches (pid :: vis) < fuel1 := by
            have := freshCount_cons_lt patches vis pid hmem hvis
            omega
          have htot := resolveListWith_total patches fuel1 (fun a b c h => ih a b c h)
            patch.dependencies res (pid :: vis) hlt2
          cases hmatch : resolveListWith (resolveDeps patches fuel1) patch.dependencies
              res (pid :: vis) with
          | none => exact absurd hmatch htot
          | some v =>
            cases v with
            | error e => simp [hres, hvis, hfind, hmatch]
            | ok pr => simp [hres, hvis, hfind, hmatch]

lemma resolveDeps_total (patches : List PatchConfig) (pid : String)
    (res : List String) :
    resolveDeps patches (patches.length + 1) pid res [] ≠ none := by
  apply resolveDeps_fueled_total
  have := freshCount_le patches []
  omega

lemma resolveTop_eq {patches : List PatchConfig} {pid : String}
    {res : List String} {r : Except RErr (List String × List String)}
    (h : resolveDeps patches (patches.length + 1) pid res [] = some r) :
    resolveTop patches pid res = r := by
  simp [resolveTop, h]

lemma resolveTop_spec (patches : List PatchConfig) (pid : String)
    (res : List String) :
    ∃ r, resolveDeps patches (patches.length + 1) pid res [] = some r ∧
      resolveTop patches pid res = r := by
  cases h : resolveDeps patches (patches.length + 1) pid res [] with
  | none => exact absurd h (resolveDeps_total patches pid res)
  | some r => exact ⟨r, rfl, resolveTop_eq h⟩

/-! ## Soundness of a successful resolution -/

lemma DepsBefore_nil (patches : List PatchConfig) (base : List String) :
    DepsBefore patches base [] := by
  intro l1 x l2 h
  exact absurd h.symm (by simp)

lemma depsOf_find {patches : List PatchConfig} {pid : String}
    {patch : PatchConfig}
    (h : patches.find? (fun p => p.id == pid) = some patch) :
    depsOf patches pid = patch.dependencies := by
  simp [depsOf, h]

lemma Declared_of_find {patches : List PatchConfig} {pid : String}
    {patch : PatchConfig}
    (h : patches.find? (fun p => p.id == pid) = some patch) :
    Declared patches pid :=
  ⟨patch, List.mem_of_find?_eq_some h, (find?_id_mem h).1⟩

lemma resolveListWith_ok_sound (patches : List PatchConfig) (fuel : Nat)
    (hD : ∀ pid res vis order res2,
      resolveDeps patches fuel pid res vis = some (.ok (order, res2)) →
      ROut patches [pid] res vis order res2) :
    ∀ deps res vis order res2,
      resolveListWith (resolveDeps patches fuel) deps res vis =
        some (.ok (order, res2)) →
      ROut patches deps res vis order res2 := by
  intro deps
  induction deps with
  | nil =>
    intro res vis order res2 h
    simp [resolveListWith] at h
    obtain ⟨h1, h2⟩ := h
    subst h1; subst h2
    exact ⟨by simp, by simp, by simp, by simp, by simp,
      DepsBefore_nil patches res, by simp, by simp⟩
  | cons d rest ih =>
    intro res vis order res2 h
    unfold resolveListWith at h
    cases hmatch : resolveDeps patches fuel d res vis with
    | none => simp [hmatch] at h
    | some v =>
      cases v with
      | error e => simp [hmatch] at h
      | ok pr =>
        obtain ⟨o1, r1⟩ := pr
        cases hmatch2 : resolveListWith (resolveDeps patches fuel) rest r1 vis with
        | none => simp [hmatch, hmatch2] at h
        | some w =>
          cases w with
          | error e => simp [hmatch, hmatch2] at h
          | ok pr2 =>
            obtain ⟨o2, r2⟩ := pr2
            simp only [hmatch, hmatch2, Option.some.injEq, Except.ok.injEq,
              Prod.mk.injEq] at h
            obtain ⟨horder, hres2⟩ := h
            subst horder; subst hres2
            have hd := hD d res vis o1 r1 hmatch
            have hr := ih r1 vis o2 r2 hmatch2
            refine ⟨?_, ?_, ?_, ?_, ?_, ?_, ?_, ?_⟩
            · intro y
              have h1 := hr.resolvedEq y
              have h2 := hd.resolvedEq y
              simp only [List.mem_append]
              tauto
            · refine List.Nodup.append hd.nodup hr.nodup ?_
              intro y hy1 hy2
              have : y ∈ r1 := (hd.resolvedEq y).2 (Or.inl hy1)
              exact hr.freshRes y hy2 this
            · intro y hy
              rcases List.mem_append.1 hy with h1 | h2
              · exact hd.freshRes y h1
              · intro hyres
                exact hr.freshRes y h2 ((hd.resolvedEq y).2 (Or.inr hyres))
            · intro y hy
              rcases List.mem_append.1 hy with h1 | h2
              · exact hd.freshVis y h1
              · exact hr.freshVis y h2
            · intro r hrmem
              rcases List.mem_cons.1 hrmem with rfl | hmem
              · have : r ∈ r1 := hd.rootsIn r (by simp)
                exact (hr.resolvedEq r).2 (Or.inr this)
              · exact hr.rootsIn r hmem
            · intro l1 x l2 hsplit d2 hd2
              rcases List.append_eq_append_iff.1 hsplit with
                ⟨a2, ha1, ha2⟩ | ⟨c2, hc1, hc2⟩
              · -- split point inside o2 : l1 = o1 ++ a2, o2 = a2 ++ x :: l2
                rcases hr.before a2 x l2 ha2 d2 hd2 with hin | hin
                · rcases (hd.resolvedEq d2).1 hin with h1 | h1
                  · exact Or.inr (by rw [ha1]; exact List.mem_append.2 (Or.inl h1))
                  · exact Or.inl h1
                · exact Or.inr (by rw [ha1]; exact List.mem_append.2 (Or.inr hin))
              · -- split point inside o1 (or exactly at its end)
                cases c2 with
                | nil =>
                  simp only [List.append_nil] at hc1
                  simp only [List.nil_append] at hc2
                  rcases hr.before [] x l2 (by simpa using hc2.symm) d2 hd2 with
                    hin | hin
                  · rcases (hd.resolvedEq d2).1 hin with h1 | h1
                    · exact Or.inr (by rw [← hc1]; exact h1)
                    · exact Or.inl h1
                  · simp at hin
                | cons c0 c2tail =>
                  rw [List.cons_append] at hc2
                  injection hc2 with hx hl2
                  subst hx
                  exact hd.before l1 x c2tail hc1 d2 hd2
            · intro y hy
              rcases List.mem_append.1 hy with h1 | h2
              · rcases hd.reach y h1 with ⟨r, hrmem, hreach⟩
                simp only [List.mem_singleton] at hrmem
                subst hrmem
                exact ⟨r, by simp, hreach⟩
              · rcases hr.reach y h2 with ⟨r, hrmem, hreach⟩
                exact ⟨r, List.mem_cons_of_mem d hrmem, hreach⟩
            · intro y hy
              rcases List.mem_append.1 hy with h1 | h2
              · exact hd.decl y h1
              · exact hr.decl y h2

lemma resolveDeps_ok_sound (patches : List PatchConfig) :
    ∀ fuel pid res vis order res2,
      resolveDeps patches fuel pid res vis = some (.ok (order, res2)) →
      ROut patches [pid] res vis order res2 := by
  intro fuel
  induction fuel with
  | zero =>
    intro pid res vis order res2 h
    simp [resolveDeps] at h
  | succ fuel1 ih =>
    intro pid res vis order res2 h
    rw [resolveDeps_succ] at h
    by_cases hres : pid ∈ res
    · simp only [hres, List.contains_iff_exists_mem_beq] at h
      rw [if_pos (by simp [hres])] at h
      simp only [Option.some.injEq, Except.ok.injEq, Prod.mk.injEq] at h
      obtain ⟨h1, h2⟩ := h
      subst h1; subst h2
      refine ⟨by simp, by simp, by simp, by simp, ?_,
        DepsBefore_nil patches res, by simp, by simp⟩
      intro r hr
      simp only [List.mem_singleton] at hr
      subst hr; exact hres
    · rw [if_neg (by simp [hres])] at h
      by_cases hvis : pid ∈ vis
      · rw [if_pos (by simp [hvis])] at h
        simp at h
      · rw [if_neg (by simp [hvis])] at h
        cases hfind : patches.find? (fun p => p.id == pid) with
        | none => simp [hfind] at h
        | some patch =>
          rw [hfind] at h
          cases hmatch : resolveListWith (resolveDeps patches fuel1)
              patch.dependencies res (pid :: vis) with
          | none => simp [hmatch] at h
          | some v =>
            cases v with
            | error e => simp [hmatch] at h
            | ok pr =>
              obtain ⟨oD, rD⟩ := pr
              simp only [hmatch, Option.some.injEq, Except.ok.injEq,
                Prod.mk.injEq] at h
              obtain ⟨horder, hres2⟩ := h
              subst horder; subst hres2
              have hl := resolveListWith_ok_sound patches fuel1 ih
                patch.dependencies res (pid :: vis) oD rD hmatch
              have hdeps : depsOf patches pid = patch.dependencies :=
                depsOf_find hfind
              have hdecl : Declared patches pid := Declared_of_find hfind
              have hpidD : pid ∉ oD := by
                intro hmem
                exact hl.freshVis pid hmem (by simp)
              refine ⟨?_, ?_, ?_, ?_, ?_, ?_, ?_, ?_⟩
              · intro y
                have h1 := hl.resolvedEq y
                simp only [List.mem_cons, List.mem_append, List.mem_singleton]
                tauto
              · refine List.Nodup.append hl.nodup (by simp) ?_
                intro y hy1 hy2
                simp only [List.mem_singleton] at hy2
                subst hy2
                exact hpidD hy1
              · intro y hy
                rcases List.mem_append.1 hy with h1 | h2
                · exact hl.freshRes y h1
                · simp only [List.mem_singleton] at h2
                  subst h2; exact hres
              · intro y hy
                rcases List.mem_append.1 hy with h1 | h2
                · intro hyvis
                  exact hl.freshVis y h1 (List.mem_cons_of_mem pid hyvis)
                · simp only [List.mem_singleton] at h2
                  subst h2; exact hvis
              · intro r hr
                simp only [List.mem_singleton] at hr
                subst hr; simp
              · intro l1 x l2 hsplit d2 hd2
                rcases List.append_eq_append_iff.1 hsplit with
                  ⟨a2, ha1, ha2⟩ | ⟨c2, hc1, hc2⟩
                · -- split point at the final [pid]
                  cases a2 with
                  | nil =>
                    simp only [List.nil_append] at ha2
                    injection ha2 with hx hl2
                    subst hx
                    simp only [List.append_nil] at ha1
                    rw [hdeps] at hd2
                    have : d2 ∈ rD := hl.rootsIn d2 hd2
                    rcases (hl.resolvedEq d2).1 this with h1 | h1
                    · exact Or.inr (by rw [ha1]; exact h1)
                    · exact Or.inl h1
                  | cons a0 a2tail =>
                    simp only [List.cons_append] at ha2
                    injection ha2 with hx hl2
                    exact absurd hl2.symm (by simp)
                · -- split point inside oD
                  cases c2 with
                  | nil =>
                    simp only [List.append_nil] at hc1
                    simp only [List.nil_append] at hc2
                    injection hc2 with hx hl2
                    subst hx
                    rw [hdeps] at hd2
                    have : d2 ∈ rD := hl.rootsIn d2 hd2
                    rcases (hl.resolvedEq d2).1 this with h1 | h1
                    · exact Or.inr (by rw [← hc1]; exact h1)
                    · exact Or.inl h1
                  | cons c0 c2tail =>
                    rw [List.cons_append] at hc2
                    injection hc2 with hx hl2
                    subst hx
                    exact hl.before l1 x c2tail hc1 d2 hd2
              · intro y hy
                rcases List.mem_append.1 hy with h1 | h2
                · rcases hl.reach y h1 with ⟨r, hrmem, hreach⟩
                  refine ⟨pid, by simp, ?_⟩
                  refine Relation.ReflTransGen.head ?_ hreach
                  show r ∈ depsOf patches pid
                  rw [hdeps]; exact hrmem
                · simp only [List.mem_singleton] at h2
                  exact ⟨pid, by simp, by rw [h2]; exact Relation.ReflTransGen.refl⟩
              · intro y hy
                rcases List.mem_append.1 hy with h1 | h2
                · exact hl.decl y h1
                · simp only [List.mem_singleton] at h2
                  subst h2; exact hdecl

/-! ## Closure under dependencies -/

lemma ROut.closed {patches : List PatchConfig}
    {roots resolved visiting order resolved2 : List String}
    (hout : ROut patches roots resolved visiting order resolved2)
    (hcl : Closed patches resolved) : Closed patches resolved2 := by
  intro x hx d hd
  rcases (hout.resolvedEq x).1 hx with hxo | hxr
  · rcases List.append_of_mem hxo with ⟨l1, l2, hsplit⟩
    rcases hout.before l1 x l2 hsplit d hd with hin | hin
    · exact (hout.resolvedEq d).2 (Or.inr hin)
    · refine (hout.resolvedEq d).2 (Or.inl ?_)
      rw [hsplit]
      exact List.mem_append.2 (Or.inl hin)
  · exact (hout.resolvedEq d).2 (Or.inr (hcl x hxr d hd))

lemma Closed_reach {patches : List PatchConfig} {S : List String}
    (hcl : Closed patches S) {x y : String} (hx : x ∈ S)
    (hreach : Reach patches x y) : y ∈ S := by
  induction hreach with
  | refl => exact hx
  | tail h1 h2 ih => exact hcl _ ih _ h2

/-! ## Soundness of the two resolver errors -/

lemma find?_eq_none_not_declared {patches : List PatchConfig} {pid : String}
    (h : patches.find? (fun p => p.id == pid) = none) :
    ¬ Declared patches pid := by
  intro hdecl
  rcases hdecl with ⟨p, hp, hid⟩
  have := List.find?_eq_none.1 h p hp
  simp [hid] at this

lemma resolveListWith_nf_sound (patches : List PatchConfig) (fuel : Nat)
    (hD : ∀ pid res vis y,
      resolveDeps patches fuel pid res vis = some (.error (.notFound y)) →
      ¬ Declared patches y ∧ Reach patches pid y) :
    ∀ deps res vis y,
      resolveListWith (resolveDeps patches fuel) deps res vis =
        some (.error (.notFound y)) →
      ¬ Declared patches y ∧ ∃ d ∈ deps, Reach patches d y := by
  intro deps
  induction deps with
  | nil => intro res vis y h; simp [resolveListWith] at h
  | cons d rest ih =>
    intro res vis y h
    unfold resolveListWith at h
    cases hmatch : resolveDeps patches fuel d res vis with
    | none => simp [hmatch] at h
    | some v =>
      cases v with
      | error e =>
        simp only [hmatch, Option.some.injEq, Except.error.injEq] at h
        subst h
        rcases hD d res vis y hmatch with ⟨h1, h2⟩
        exact ⟨h1, d, by simp, h2⟩
      | ok pr =>
        obtain ⟨o1, r1⟩ := pr
        cases hmatch2 : resolveListWith (resolveDeps patches fuel) rest r1 vis with
        | none => simp [hmatch, hmatch2] at h
        | some w =>
          cases w with
          | error e =>
            simp only [hmatch, hmatch2, Option.some.injEq, Except.error.injEq] at h
            subst h
            rcases ih r1 vis y hmatch2 with ⟨h1, d2, hd2, h2⟩
            exact ⟨h1, d2, List.mem_cons_of_mem d hd2, h2⟩
          | ok pr2 => simp [hmatch, hmatch2] at h

lemma resolveDeps_nf_sound (patches : List PatchConfig) :
    ∀ fuel pid res vis y,
      resolveDeps patches fuel pid res vis = some (.error (.notFound y)) →
      ¬ Declared patches y ∧ Reach patches pid y := by
  intro fuel
  induction fuel with
  | zero => intro pid res vis y h; simp [resolveDeps] at h
  | succ fuel1 ih =>
    intro pid res vis y h
    rw [resolveDeps_succ] at h
    by_cases hres : pid ∈ res
    · rw [if_pos (by simp [hres])] at h
      simp at h
    · rw [if_neg (by simp [hres])] at h
      by_cases hvis : pid ∈ vis
      · rw [if_pos (by simp [hvis])] at h
        simp at h
      · rw [if_neg (by simp [hvis])] at h
        cases hfind : patches.find? (fun p => p.id == pid) with
        | none =>
          rw [hfind] at h
          simp only [Option.some.injEq, Except.error.injEq, RErr.notFound.injEq] at h
          subst h
          exact ⟨find?_eq_none_not_declared hfind, Relation.ReflTransGen.refl⟩
        | some patch =>
          rw [hfind] at h
          cases hmatch : resolveListWith (resolveDeps patches fuel1)
              patch.dependencies res (pid :: vis) with
          | none => simp [hmatch] at h
          | some v =>
            cases v with
            | error e =>
              simp only [hmatch, Option.some.injEq, Except.error.injEq] at h
              subst h
              rcases resolveListWith_nf_sound patches fuel1 ih
                patch.dependencies res (pid :: vis) y hmatch with ⟨h1, d, hd, h2⟩
              refine ⟨h1, Relation.ReflTransGen.head ?_ h2⟩
              show d ∈ depsOf patches pid
              rw [depsOf_find hfind]; exact hd
            | ok pr => simp [hmatch] at h

/-! ## The `visiting` stack is a dependency chain, so a `circular`
error always exhibits a genuine cycle. -/

lemma chain_reach_head (patches : List PatchConfig) :
    ∀ rest (v : String), ChainR patches (v :: rest) →
      ∀ x ∈ v :: rest, Relation.ReflTransGen (DepStep patches) x v := by
  intro rest
  induction rest with
  | nil =>
    intro v _ x hx
    simp only [List.mem_singleton] at hx
    subst hx; exact Relation.ReflTransGen.refl
  | cons w rest2 ih =>
    intro v hchain x hx
    rcases List.mem_cons.1 hx with rfl | hx2
    · exact Relation.ReflTransGen.refl
    · have hstep : DepStep patches w v := hchain.1
      have := ih w hchain.2 x hx2
      exact Relation.ReflTransGen.tail this hstep

lemma chain_cycle (patches : List PatchConfig) {v : String} {rest : List String}
    {pid : String} (hchain : ChainR patches (v :: rest))
    (hmem : pid ∈ v :: rest) (hdep : pid ∈ depsOf patches v) :
    Relation.TransGen (DepStep patches) pid pid :=
  Relation.TransGen.tail' (chain_reach_head patches rest v hchain pid hmem) hdep

lemma resolveListWith_circ_sound (patches : List PatchConfig) (fuel : Nat)
    (hD : ∀ pid res vis c, ChainR patches vis → HeadLink patches pid vis →
      resolveDeps patches fuel pid res vis = some (.error (.circular c)) →
      Relation.TransGen (DepStep patches) c c) :
    ∀ deps res vis c, ChainR patches vis →
      (∀ d ∈ deps, HeadLink patches d vis) →
      resolveListWith (resolveDeps patches fuel) deps res vis =
        some (.error (.circular c)) →
      Relation.TransGen (DepStep patches) c c := by
  intro deps
  induction deps with
  | nil => intro res vis c _ _ h; simp [resolveListWith] at h
  | cons d rest ih =>
    intro res vis c hchain hlinks h
    unfold resolveListWith at h
    cases hmatch : resolveDeps patches fuel d res vis with
    | none => simp [hmatch] at h
    | some v =>
      cases v with
      | error e =>
        simp only [hmatch, Option.some.injEq, Except.error.injEq] at h
        subst h
        exact hD d res vis c hchain (hlinks d (by simp)) hmatch
      | ok pr =>
        obtain ⟨o1, r1⟩ := pr
        cases hmatch2 : resolveListWith (resolveDeps patches fuel) rest r1 vis with
        | none => simp [hmatch, hmatch2] at h
        | some w =>
          cases w with
          | error e =>
            simp only [hmatch, hmatch2, Option.some.injEq, Except.error.injEq] at h
            subst h
            exact ih r1 vis c hchain
              (fun d2 hd2 => hlinks d2 (List.mem_cons_of_mem d hd2)) hmatch2
          | ok pr2 => simp [hmatch, hmatch2] at h

lemma resolveDeps_circ_sound (patches : List PatchConfig) :
    ∀ fuel pid res vis c, ChainR patches vis → HeadLink patches pid vis →
      resolveDeps patches fuel pid res vis = some (.error (.circular c)) →
      Relation.TransGen (DepStep patches) c c := by
  intro fuel
  induction fuel with
  | zero => intro pid res vis c _ _ h; simp [resolveDeps] at h
  | succ fuel1 ih =>
    intro pid res vis c hchain hlink h
    rw [resolveDeps_succ] at h
    by_cases hres : pid ∈ res
    · rw [if_pos (by simp [hres])] at h
      simp at h
    · rw [if_neg (by simp [hres])] at h
      by_cases hvis : pid ∈ vis
      · rw [if_pos (by simp [hvis])] at h
        simp only [Option.some.injEq, Except.error.injEq, RErr.circular.injEq] at h
        subst h
        cases vis with
        | nil => simp at hvis
        | cons v rest => exact chain_cycle patches hchain hvis hlink
      · rw [if_neg (by simp [hvis])] at h
        cases hfind : patches.find? (fun p => p.id == pid) with
        | none => rw [hfind] at h; simp at h
        | some patch =>
          rw [hfind] at h
          cases hmatch : resolveListWith (resolveDeps patches fuel1)
              patch.dependencies res (pid :: vis) with
          | none => simp [hmatch] at h
          | some v =>
            cases v with
            | error e =>
              simp only [hmatch, Option.some.injEq, Except.error.injEq] at h
              subst h
              refine resolveListWith_circ_sound patches fuel1 ih
                patch.dependencies res (pid :: vis) c ⟨hlink, hchain⟩ ?_ hmatch
              intro d hd
              show d ∈ depsOf patches pid
              rw [depsOf_find hfind]; exact hd
            | ok pr => simp [hmatch] at h

/-! ## The accumulation loop of `applyPatches` -/

lemma dedupAppend_of_disjoint :
    ∀ (dnew acc : List String), dnew.Nodup → (∀ d ∈ dnew, d ∉ acc) →
      dedupAppend acc dnew = acc ++ dnew := by
  intro dnew
  induction dnew with
  | nil => intro acc _ _; simp [dedupAppend]
  | cons x xs ih =>
    intro acc hnodup hdis
    have hx : x ∉ acc := hdis x (by simp)
    have hcont : acc.contains x = false := by simp [hx]
    unfold dedupAppend
    rw [if_neg (by simp [hx])]
    rw [ih (acc ++ [x]) (List.Nodup.of_cons hnodup) ?_]
    · simp
    · intro d hd
      simp only [List.mem_append, List.mem_singleton]
      rintro (h1 | rfl)
      · exact hdis d (List.mem_cons_of_mem x hd) h1
      · exact (List.nodup_cons.1 hnodup).1 hd

lemma DepsBefore_append {patches : List PatchConfig}
    {acc dnew resolved : List String}
    (h1 : DepsBefore patches [] acc) (h2 : DepsBefore patches resolved dnew)
    (hsub : ∀ y ∈ resolved, y ∈ acc) :
    DepsBefore patches [] (acc ++ dnew) := by
  intro l1 x l2 hsplit d hd
  rcases List.append_eq_append_iff.1 hsplit with
    ⟨a2, ha1, ha2⟩ | ⟨c2, hc1, hc2⟩
  · -- split inside dnew : l1 = acc ++ a2, dnew = a2 ++ x :: l2
    rcases h2 a2 x l2 ha2 d hd with hin | hin
    · refine Or.inr ?_
      rw [ha1]
      exact List.mem_append.2 (Or.inl (hsub d hin))
    · refine Or.inr ?_
      rw [ha1]
      exact List.mem_append.2 (Or.inr hin)
  · -- split inside acc (or at its end)
    cases c2 with
    | nil =>
      simp only [List.append_nil] at hc1
      simp only [List.nil_append] at hc2
      rcases h2 [] x l2 (by simpa using hc2.symm) d hd with hin | hin
      · exact Or.inr (by rw [← hc1]; exact hsub d hin)
      · simp at hin
    | cons c0 c2tail =>
      rw [List.cons_append] at hc2
      injection hc2 with hx hl2
      subst hx
      exact h1 l1 x c2tail hc1 d hd

lemma computeOrderAux_ok_sound (patches : List PatchConfig) :
    ∀ (req acc resolved roots orderF resolvedF : List String),
      computeOrderAux patches req acc resolved = .ok (orderF, resolvedF) →
      (∀ y, y ∈ acc ↔ y ∈ resolved) →
      acc.Nodup →
      DepsBefore patches [] acc →
      Closed patches resolved →
      (∀ y ∈ acc, ∃ r ∈ roots, Reach patches r y) →
      (∀ y ∈ acc, Declared patches y) →
      ((∀ y, y ∈ orderF ↔ y ∈ resolvedF) ∧ orderF.Nodup ∧
        DepsBefore patches [] orderF ∧ Closed patches resolvedF ∧
        (∀ y ∈ orderF, ∃ r, (r ∈ roots ∨ r ∈ req) ∧ Reach patches r y) ∧
        (∀ r ∈ req, r ∈ resolvedF) ∧
        (∀ y ∈ orderF, Declared patches y) ∧
        (∀ y ∈ resolved, y ∈ resolvedF)) := by
  intro req
  induction req with
  | nil =>
    intro acc resolved roots orderF resolvedF h hEq hnd hbef hcl hreach hdecl
    simp only [computeOrderAux, Except.ok.injEq, Prod.mk.injEq] at h
    obtain ⟨h1, h2⟩ := h
    subst h1; subst h2
    exact ⟨hEq, hnd, hbef, hcl,
      fun y hy => (hreach y hy).elim fun r hr => ⟨r, Or.inl hr.1, hr.2⟩,
      by simp, hdecl, fun y hy => hy⟩
  | cons r rest ih =>
    intro acc resolved roots orderF resolvedF h hEq hnd hbef hcl hreach hdecl
    unfold computeOrderAux at h
    rcases resolveTop_spec patches r resolved with ⟨rr, hsome, htop⟩
    cases rr with
    | error e => rw [htop] at h; simp at h
    | ok pr =>
      obtain ⟨dnew, resolved2⟩ := pr
      rw [htop] at h
      dsimp only at h
      have hout : ROut patches [r] resolved [] dnew resolved2 :=
        resolveDeps_ok_sound patches (patches.length + 1) r resolved [] dnew
          resolved2 hsome
      have hdis : ∀ d ∈ dnew, d ∉ acc := by
        intro d hd hdacc
        exact hout.freshRes d hd ((hEq d).1 hdacc)
      have hded : dedupAppend acc dnew = acc ++ dnew :=
        dedupAppend_of_disjoint dnew acc hout.nodup hdis
      rw [hded] at h
      have hrec := ih (acc ++ dnew) resolved2 (roots ++ [r]) orderF resolvedF h
        ?_ ?_ ?_ ?_ ?_ ?_
      · obtain ⟨c1, c2, c3, c4, c5, c6, c7, c8⟩ := hrec
        refine ⟨c1, c2, c3, c4, ?_, ?_, c7, ?_⟩
        · intro y hy
          rcases c5 y hy with ⟨r2, hr2, hreach2⟩
          refine ⟨r2, ?_, hreach2⟩
          simp only [List.mem_append, List.mem_singleton, List.mem_cons] at hr2 ⊢
          tauto
        · intro r2 hr2
          rcases List.mem_cons.1 hr2 with rfl | hmem
          · exact c8 r2 (hout.rootsIn r2 (by simp))
          · exact c6 r2 hmem
        · intro y hy
          exact c8 y ((hout.resolvedEq y).2 (Or.inr hy))
      · intro y
        have h1 := hout.resolvedEq y
        have h2 := hEq y
        simp only [List.mem_append]
        tauto
      · refine List.Nodup.append hnd hout.nodup ?_
        intro y hy1 hy2
        exact hdis y hy2 hy1
      · exact DepsBefore_append hbef hout.before (fun y hy => (hEq y).2 hy)
      · exact hout.closed hcl
      · intro y hy
        rcases List.mem_append.1 hy with h1 | h2
        · rcases hreach y h1 with ⟨r2, hr2, hreach2⟩
          exact ⟨r2, List.mem_append.2 (Or.inl hr2), hreach2⟩
        · rcases hout.reach y h2 with ⟨r2, hr2, hreach2⟩
          simp only [List.mem_singleton] at hr2
          subst hr2
          exact ⟨r2, List.mem_append.2 (Or.inr (by simp)), hreach2⟩
      · intro y hy
        rcases List.mem_append.1 hy with h1 | h2
        · exact hdecl y h1
        · exact hout.decl y h2

lemma computeOrderAux_err_sound (patches : List PatchConfig) :
    ∀ (req acc resolved : List String) (e : RErr),
      computeOrderAux patches req acc resolved = .error e →
      ∃ r ∈ req, ∃ res2, resolveDeps patches (patches.length + 1) r res2 [] =
        some (.error e) := by
  intro req
  induction req with
  | nil => intro acc resolved e h; simp [computeOrderAux] at h
  | cons r rest ih =>
    intro acc resolved e h
    unfold computeOrderAux at h
    rcases resolveTop_spec patches r resolved with ⟨rr, hsome, htop⟩
    cases rr with
    | error e2 =>
      rw [htop] at h
      simp only [Except.error.injEq] at h
      subst h
      exact ⟨r, by simp, resolved, hsome⟩
    | ok pr =>
      obtain ⟨dnew, resolved2⟩ := pr
      rw [htop] at h
      rcases ih (dedupAppend acc dnew) resolved2 e h with ⟨r2, hr2, res2, hres2⟩
      exact ⟨r2, List.mem_cons_of_mem r hr2, res2, hres2⟩

/-- Everything a successful `computeApplyOrder` guarantees: the claims
C1, C4 and C5 all rest on this. -/
lemma computeApplyOrder_ok_sound {patches : List PatchConfig}
    {requested order : List String}
    (h : computeApplyOrder patches requested = .ok order) :
    order.Nodup ∧ DepsBefore patches [] order ∧
    (∀ y ∈ order, Declared patches y) ∧
    (∀ y, y ∈ order ↔ ∃ r ∈ requested, Reach patches r y) := by
  unfold computeApplyOrder at h
  cases haux : computeOrderAux patches requested [] [] with
  | error e => rw [haux] at h; simp at h
  | ok pr =>
    obtain ⟨orderF, resolvedF⟩ := pr
    rw [haux] at h
    simp only [Except.ok.injEq] at h
    subst h
    have hspec := computeOrderAux_ok_sound patches requested [] [] [] orderF
      resolvedF haux (by simp) (by simp) (DepsBefore_nil patches [])
      (by intro x hx; simp at hx) (by simp) (by simp)
    obtain ⟨c1, c2, c3, c4, c5, c6, c7, c8⟩ := hspec
    refine ⟨c2, c3, c7, ?_⟩
    intro y
    constructor
    · intro hy
      rcases c5 y hy with ⟨r, hr, hreach⟩
      rcases hr with h1 | h1
      · simp at h1
      · exact ⟨r, h1, hreach⟩
    · rintro ⟨r, hr, hreach⟩
      have hrres : r ∈ resolvedF := c6 r hr
      have := Closed_reach c4 hrres hreach
      exact (c1 y).2 this

lemma computeApplyOrder_err_sound {patches : List PatchConfig}
    {requested : List String} {e : RErr}
    (h : computeApplyOrder patches requested = .error e) :
    ∃ r ∈ requested, ∃ res2,
      resolveDeps patches (patches.length + 1) r res2 [] = some (.error e) := by
  unfold computeApplyOrder at h
  cases haux : computeOrderAux patches requested [] [] with
  | error e2 =>
    rw [haux] at h
    simp only [Except.error.injEq] at h
    subst h
    exact computeOrderAux_err_sound patches requested [] [] e2 haux
  | ok pr => rw [haux] at h; simp at h

/-! ## Precedence inside a computed order, and the impossibility of
success in the presence of a reachable cycle -/

lemma MemBefore_irrefl {order : List String} (hnd : order.Nodup) (c : String) :
    ¬ MemBefore order c c := by
  rintro ⟨l1, l2, hsplit, hmem⟩
  rw [hsplit] at hnd
  rcases List.nodup_append.1 hnd with ⟨_, _, hdisj⟩
  exact hdisj hmem (by simp)

lemma MemBefore_trans {order : List String} (hnd : order.Nodup)
    {a b c : String} (h1 : MemBefore order c b) (h2 : MemBefore order b a) :
    MemBefore order c a := by
  rcases h1 with ⟨p1, p2, hp, hcp⟩
  rcases h2 with ⟨q1, q2, hq, hbq⟩
  refine ⟨q1, q2, hq, ?_⟩
  have hpq : p1 ++ b :: p2 = q1 ++ a :: q2 := by rw [← hp, ← hq]
  rcases List.append_eq_append_iff.1 hpq with ⟨a2, ha1, ha2⟩ | ⟨c2, hc1, hc2⟩
  · -- q1 = p1 ++ a2 : c ∈ p1 ⊆ q1
    rw [ha1]
    exact List.mem_append.2 (Or.inl hcp)
  · -- p1 = q1 ++ c2, a :: q2 = c2 ++ b :: p2
    cases c2 with
    | nil =>
      simp only [List.append_nil] at hc1
      simp only [List.nil_append] at hc2
      injection hc2 with hab hq2
      -- a = b and q2 = p2, so b ∈ q1 = p1 contradicts nodup at b's position
      rw [hq] at hnd
      rcases List.nodup_append.1 hnd with ⟨_, _, hdisj⟩
      subst hab
      exact absurd (by simp) (fun h3 => hdisj hbq h3)
    | cons c0 c2tail =>
      rw [List.cons_append] at hc2
      injection hc2 with hac hq2
      -- q2 = c2tail ++ b :: p2 yet also b ∈ q1 : contradicts nodup
      rw [hq] at hnd
      rcases List.nodup_append.1 hnd with ⟨_, _, hdisj⟩
      exfalso
      refine hdisj hbq ?_
      rw [hq2]
      simp

lemma DepsBefore_memBefore {patches : List PatchConfig} {order : List String}
    (hbef : DepsBefore patches [] order) {x d : String}
    (hx : x ∈ order) (hd : d ∈ depsOf patches x) :
    MemBefore order d x ∧ d ∈ order := by
  rcases List.append_of_mem hx with ⟨l1, l2, hsplit⟩
  rcases hbef l1 x l2 hsplit d hd with hin | hin
  · simp at hin
  · exact ⟨⟨l1, l2, hsplit, hin⟩, by rw [hsplit]; exact List.mem_append.2 (Or.inl hin)⟩

lemma transGen_memBefore {patches : List PatchConfig} {order : List String}
    (hnd : order.Nodup) (hbef : DepsBefore patches [] order) {a b : String}
    (h : Relation.TransGen (DepStep patches) a b) (ha : a ∈ order) :
    MemBefore order b a ∧ b ∈ order := by
  induction h with
  | single hstep => exact DepsBefore_memBefore hbef ha hstep
  | tail h1 hstep ih =>
    rcases ih with ⟨hmb, hbmem⟩
    rcases DepsBefore_memBefore hbef hbmem hstep with ⟨hmb2, hcmem⟩
    exact ⟨MemBefore_trans hnd hmb2 hmb, hcmem⟩

/-- No successful order can contain a node lying on a dependency cycle. -/
lemma no_cycle_in_order {patches : List PatchConfig} {order : List String}
    (hnd : order.Nodup) (hbef : DepsBefore patches [] order) {c : String}
    (hc : c ∈ order) (hcyc : Relation.TransGen (DepStep patches) c c) : False :=
  MemBefore_irrefl hnd c (transGen_memBefore hnd hbef hcyc hc).1

lemma Declared_reach {patches : List PatchConfig}
    (hWF : ∀ x d, Declared patches x → d ∈ depsOf patches x →
      Declared patches d)
    {x y : String} (hx : Declared patches x) (h : Reach patches x y) :
    Declared patches y := by
  induction h with
  | refl => exact hx
  | tail h1 h2 ih => exact hWF _ _ ih h2

/-! ## Claim theorems for the Dependency Resolver -/

lemma filter_ids_declared (config : Config) (category : Option String)
    (all : Bool) :
    ∀ r ∈ (filterPatches config category all).map (fun p => p.id),
      Declared config.patches r := by
  intro r hr
  rcases List.mem_map.1 hr with ⟨p, hp, hid⟩
  exact ⟨p, List.mem_of_mem_filter hp, hid⟩

/-- C1.  For every acyclic dependency graph loaded from the
configuration (dependency references declared, as the registry
invariant demands) and every filter (category and `--all` flag
arbitrary, i.e. every requested set `applyPatches` can form), the apply
order computed by `resolveDependencies` and accumulated in
`applyPatches` exists, has no duplicate ids, places every declared
dependency of an emitted patch strictly before that patch, and contains
exactly the ids reachable from the requested set through the dependency
relation over the full registry — so prerequisites are included even
when they are disabled or outside the category filter. -/
theorem claim_C1_resolver_topological_closure (config : Config)
    (category : Option String) (all : Bool)
    (hWF : ∀ x d, Declared config.patches x → d ∈ depsOf config.patches x →
      Declared config.patches d)
    (hacyc : ∀ c, ¬ Relation.TransGen (DepStep config.patches) c c) :
    ∃ order, computeApplyOrder config.patches
      ((filterPatches config category all).map (fun p => p.id)) = .ok order ∧
    order.Nodup ∧
    (∀ l1 x l2, order = l1 ++ x :: l2 →
      ∀ d ∈ depsOf config.patches x, d ∈ l1) ∧
    (∀ y, y ∈ order ↔
      ∃ r ∈ (filterPatches config category all).map (fun p => p.id),
        Reach config.patches r y) := by
  cases hres : computeApplyOrder config.patches
      ((filterPatches config category all).map (fun p => p.id)) with
  | error e =>
    rcases computeApplyOrder_err_sound hres with ⟨r2, hr2, res2, hsome⟩
    cases e with
    | circular c =>
      exact absurd (resolveDeps_circ_sound config.patches
        (config.patches.length + 1) r2 res2 [] c trivial trivial hsome)
        (hacyc c)
    | notFound y =>
      rcases resolveDeps_nf_sound config.patches (config.patches.length + 1)
        r2 res2 [] y hsome with ⟨hnd, hreach⟩
      exact absurd (Declared_reach hWF
        (filter_ids_declared config category all r2 hr2) hreach) hnd
  | ok order =>
    rcases computeApplyOrder_ok_sound hres with ⟨c1, c2, _, c4⟩
    refine ⟨order, rfl, c1, ?_, c4⟩
    intro l1 x l2 hsplit d hd
    rcases c2 l1 x l2 hsplit d hd with hin | hin
    · simp at hin
    · exact hin

/-- C4.  If the dependency graph declared in the configuration (all
dependency references declared, all requested ids declared) contains a
cycle reachable from a requested id, resolution aborts with the
`Circular dependency detected` error, the reported id itself lies on a
dependency cycle, and no order is returned (the result is an error, not
an `ok`). -/
theorem claim_C4_cycle_fatal (patches : List PatchConfig)
    (requested : List String) (r c : String)
    (hWF : ∀ x d, Declared patches x → d ∈ depsOf patches x →
      Declared patches d)
    (hreq : ∀ q ∈ requested, Declared patches q)
    (hr : r ∈ requested) (hrc : Reach patches r c)
    (hcyc : Relation.TransGen (DepStep patches) c c) :
    ∃ c2, computeApplyOrder patches requested = .error (.circular c2) ∧
      Relation.TransGen (DepStep patches) c2 c2 := by
  cases hres : computeApplyOrder patches requested with
  | ok order =>
    rcases computeApplyOrder_ok_sound hres with ⟨c1, c2, _, c4⟩
    have hc : c ∈ order := (c4 c).2 ⟨r, hr, hrc⟩
    exact absurd hcyc (fun hx => no_cycle_in_order c1 c2 hc hx)
  | error e =>
    rcases computeApplyOrder_err_sound hres with ⟨r2, hr2, res2, hsome⟩
    cases e with
    | circular c2 =>
      exact ⟨c2, rfl,
        resolveDeps_circ_sound patches (patches.length + 1) r2 res2 [] c2
          trivial trivial hsome⟩
    | notFound y =>
      rcases resolveDeps_nf_sound patches (patches.length + 1) r2 res2 [] y
        hsome with ⟨hnd, hreach⟩
      exact absurd (Declared_reach hWF (hreq r2 hr2) hreach) hnd

/-- C5.  If some id reachable from the requested set (the requested id
itself or a transitive dependency reference) is not declared by any
patch, resolution of an otherwise acyclic graph aborts with the
`Patch not found` error; the error names an undeclared reachable id
(hence exactly the offending id when it is unique), and it is a
different error from the cycle error. -/
theorem claim_C5_unknown_id_fatal (patches : List PatchConfig)
    (requested : List String) (z : String)
    (hacyc : ∀ c, ¬ Relation.TransGen (DepStep patches) c c)
    (hz : ¬ Declared patches z)
    (hreach : ∃ r ∈ requested, Reach patches r z) :
    ∃ y, computeApplyOrder patches requested = .error (.notFound y) ∧
      ¬ Declared patches y ∧ (∃ r ∈ requested, Reach patches r y) ∧
      (∀ c, RErr.notFound y ≠ RErr.circular c) ∧
      ((∀ w, (∃ r ∈ requested, Reach patches r w) → ¬ Declared patches w →
        w = z) → y = z) := by
  cases hres : computeApplyOrder patches requested with
  | ok order =>
    rcases computeApplyOrder_ok_sound hres with ⟨_, _, c3, c4⟩
    rcases hreach with ⟨r, hr, hrz⟩
    have hzord : z ∈ order := (c4 z).2 ⟨r, hr, hrz⟩
    exact absurd (c3 z hzord) hz
  | error e =>
    rcases computeApplyOrder_err_sound hres with ⟨r2, hr2, res2, hsome⟩
    cases e with
    | circular c =>
      have := resolveDeps_circ_sound patches (patches.length + 1) r2 res2 [] c
        trivial trivial hsome
      exact absurd this (hacyc c)
    | notFound y =>
      rcases resolveDeps_nf_sound patches (patches.length + 1) r2 res2 [] y
        hsome with ⟨hnd, hry⟩
      exact ⟨y, rfl, hnd, ⟨r2, hr2, hry⟩, by intro c; simp,
        fun huniq => huniq y ⟨r2, hr2, hry⟩ hnd⟩

/-- C10.  `resolveDependencies` terminates: any fuel exceeding the
number of declared ids not yet on the `visiting` stack is never
exhausted, and in particular the number of declared patches plus one
always suffices for a top-level call (empty `visiting`), because each
nesting level pushes a distinct declared id onto the stack. -/
theorem claim_C10_resolver_terminates (patches : List PatchConfig)
    (fuel : Nat) (pid : String) (resolved visiting : List String)
    (h : freshCount patches visiting < fuel) :
    resolveDeps patches fuel pid resolved visiting ≠ none ∧
    resolveDeps patches (patches.length + 1) pid resolved [] ≠ none :=
  ⟨resolveDeps_fueled_total patches fuel pid resolved visiting h,
    resolveDeps_total patches pid resolved⟩

/-! ## Claim theorems for the Content Verifier and the Patch Applier -/

/-- C9 (amended).  For a patch with the declared check type `"grep"`,
the Verifier reports it satisfied exactly when every declared
`(file, patterns)` entry is individually satisfied (`fileOk`), and a
missing or unreadable target file makes the whole patch unsatisfied
whenever at least one pattern is required of that file.  (With an empty
pattern list the file is never consulted: see the counterexample to the
unconditional missing-file clause.) -/
theorem claim_C9_verifier_all_entries (mat : String → String → Bool)
    (tree : Tree) (p : PatchConfig) (htype : p.checkApplied.type = "grep") :
    (checkPatchApplied mat tree p = true ↔
      ∀ f ∈ p.checkApplied.files, fileOk mat tree f = true) ∧
    (∀ f ∈ p.checkApplied.files, f.patterns ≠ [] →
      (tree f.path = .missing ∨ tree f.path = .unreadable) →
      checkPatchApplied mat tree p = false) := by
  constructor
  · simp [checkPatchApplied, htype, List.all_eq_true]
  · intro f hf hne hbad
    have hfileOk : fileOk mat tree f = false := by
      rcases List.exists_mem_of_ne_nil f.patterns hne with ⟨pat, hpat⟩
      have hgrep : grepOk mat (tree f.path) pat = false := by
        rcases hbad with hb | hb <;> rw [hb] <;> rfl
      cases hcase : fileOk mat tree f with
      | false => rfl
      | true =>
        unfold fileOk at hcase
        have h2 : grepOk mat (tree f.path) pat = true := by
          have := List.all_eq_true.1 hcase pat hpat
          simpa using this
        rw [hgrep] at h2
        cases h2
    simp only [checkPatchApplied, htype]
    rw [if_neg (by simp)]
    rw [List.all_eq_false]
    exact ⟨f, hf, by simp [hfileOk]⟩

/-- C3 (amended).  If the Verifier reports the patch satisfied on the
current tree, `applyPatch` returns `alreadySatisfied` with the tree
untouched — for every environment, so the dry-run/apply capabilities
are demonstrably never consulted — and a second call on the resulting
tree again returns `alreadySatisfied` with the same tree.  (The
unconditional two-call idempotence law fails when the first call
performs a real application whose result does not satisfy the
verification patterns: see the counterexample.) -/
theorem claim_C3_already_satisfied_short_circuit (env : ApplyEnv)
    (tree : Tree) (p : PatchConfig)
    (h : checkPatchApplied env.mat tree p = true) :
    applyPatch env tree p = (.alreadySatisfied, tree) ∧
    applyPatch env (applyPatch env tree p).2 p = (.alreadySatisfied, tree) ∧
    ApplyOutcome.alreadySatisfied.success = true := by
  have h1 : applyPatch env tree p = (.alreadySatisfied, tree) := by
    simp [applyPatch, h]
  exact ⟨h1, by rw [h1]; simp [applyPatch, h], rfl⟩

/-- C2 (amended).  When the pre-check is unsatisfied, the artifact and
working tree both exist, the dry run succeeds and the real `git apply`
succeeds, `applyPatch` returns success (`applied`) with the tree the
application produced — immediately, without re-running the Verifier on
that tree (the statement holds for every environment, in particular
ones whose verification patterns are absent from the new tree). -/
theorem claim_C2_success_without_reverification (env : ApplyEnv)
    (tree t2 : Tree) (p : PatchConfig)
    (h1 : checkPatchApplied env.mat tree p = false)
    (h2 : env.artifactOnDisk p.file = true)
    (h3 : env.dirOnDisk = true)
    (h4 : env.dryRun tree p.file = true)
    (h5 : env.applyArtifact tree p.file = (true, t2)) :
    applyPatch env tree p = (.applied, t2) ∧
    ApplyOutcome.applied.success = true := by
  constructor
  · simp [applyPatch, h1, h2, h3, h4, h5]
  · rfl

/-- C6.  When the pre-check is unsatisfied, artifact and tree exist, and
either the dry run fails (tree untouched) or the real application fails
leaving tree `t2`, `applyPatch` re-runs the Verifier on the resulting
tree: a satisfied re-check yields the success outcome
(`satisfiedAfterError`, the catch-path `already applied despite error`
return), otherwise the outcome is `failed`. -/
theorem claim_C6_failed_apply_rechecks_verifier (env : ApplyEnv)
    (tree t2 : Tree) (p : PatchConfig)
    (h1 : checkPatchApplied env.mat tree p = false)
    (h2 : env.artifactOnDisk p.file = true)
    (h3 : env.dirOnDisk = true)
    (hfail : (env.dryRun tree p.file = false ∧ t2 = tree) ∨
      (env.dryRun tree p.file = true ∧
        env.applyArtifact tree p.file = (false, t2))) :
    applyPatch env tree p =
      (if checkPatchApplied env.mat t2 p then (.satisfiedAfterError, t2)
       else (.failed, t2)) ∧
    ApplyOutcome.satisfiedAfterError.success = true ∧
    ApplyOutcome.failed.success = false := by
  refine ⟨?_, rfl, rfl⟩
  rcases hfail with ⟨hdry, rfl⟩ | ⟨hdry, happ⟩
  · simp [applyPatch, h1, h2, h3, hdry]
  · simp [applyPatch, h1, h2, h3, hdry, happ]

/-! ## Claim theorems for the Orchestration Driver and the Registry -/

lemma runPatches_length (env : ApplyEnv) (patches : List PatchConfig) :
    ∀ (order : List String) (tree : Tree),
      (runPatches env patches order tree).1.length =
        (order.filter
          (fun pid => (patches.find? (fun p => p.id == pid)).isSome)).length := by
  intro order
  induction order with
  | nil => intro tree; simp [runPatches]
  | cons pid rest ih =>
    intro tree
    unfold runPatches
    cases hfind : patches.find? (fun p => p.id == pid) with
    | none => simp [hfind, List.filter_cons, ih]
    | some p => simp [hfind, List.filter_cons, ih]

/-- C7.  The apply loop attempts every declared patch of the resolved
order — one boolean result per declared id, independent of earlier
failures (there is no early abort in `runPatches`) — and the final
process outcome is a failure exactly when at least one collected result
is a failure. -/
theorem claim_C7_attempt_all_fail_iff_any (env : ApplyEnv) (config : Config)
    (category : Option String) (all : Bool) (tree : Tree)
    (order : List String) (results : List Bool) (tree2 : Tree) (exitOk : Bool)
    (h1 : computeApplyOrder config.patches
      ((filterPatches config category all).map (fun p => p.id)) = .ok order)
    (h2 : applyPatches env config category all tree = .ok (results, tree2, exitOk)) :
    results.length = (order.filter
      (fun pid => (config.patches.find? (fun p => p.id == pid)).isSome)).length ∧
    (exitOk = false ↔ ∃ r ∈ results, r = false) := by
  unfold applyPatches at h2
  by_cases hempty : (filterPatches config category all).isEmpty = true
  · rw [if_pos hempty] at h2
    simp only [Except.ok.injEq, Prod.mk.injEq] at h2
    obtain ⟨hres, htree, hok⟩ := h2
    subst hres; subst hok
    have hreq : (filterPatches config category all).map (fun p => p.id) = [] := by
      rw [List.isEmpty_iff] at hempty
      simp [hempty]
    rw [hreq] at h1
    have horder : order = [] := by
      have : computeApplyOrder config.patches [] = .ok [] := rfl
      rw [this] at h1
      simpa using h1.symm
    subst horder
    simp
  · rw [if_neg hempty] at h2
    rw [h1] at h2
    simp only [Except.ok.injEq, Prod.mk.injEq] at h2
    obtain ⟨hres, htree, hok⟩ := h2
    subst hres
    constructor
    · exact runPatches_length env config.patches order tree
    · subst hok
      constructor
      · intro hfalse
        by_contra hnone
        push_neg at hnone
        have hall : ∀ r ∈ (runPatches env config.patches order tree).1, r = true := by
          intro r hr
          cases r with
          | false => exact absurd rfl (hnone false hr)
          | true => rfl
        have : ((runPatches env config.patches order tree).1.filter
            (fun r => !r)) = [] := by
          rw [List.filter_eq_nil_iff]
          intro r hr
          rw [hall r hr]
          simp
        rw [this] at hfalse
        simp at hfalse
      · rintro ⟨r, hr, rfl⟩
        by_contra hok
        have hok2 : (((runPatches env config.patches order tree).1.filter
            (fun r => !r)).length == 0) = true := by
          cases h : (((runPatches env config.patches order tree).1.filter
              (fun r => !r)).length == 0) with
          | false => exact absurd h hok
          | true => rfl
        have : ((runPatches env config.patches order tree).1.filter
            (fun r => !r)).length = 0 := by simpa using hok2
        have hmem : (false : Bool) ∈ (runPatches env config.patches order tree).1.filter
            (fun r => !r) := List.mem_filter.2 ⟨hr, by simp⟩
        rw [List.length_eq_zero] at this
        rw [this] at hmem
        simp at hmem

/-- C8.  For a declared patch id: `enablePatch` is never refused;
enable and disable are informational no-ops when the patch is already
in the requested state (the no-op check runs first, so it takes
precedence); and disabling an enabled patch is refused — returning the
fatal `refused` result that saves nothing, listing exactly the enabled
patches that declare the id as a dependency — whenever that dependent
list is non-empty, while it saves the flipped flag when the list is
empty. -/
theorem claim_C8_disable_guard_enable_free (config : Config) (pid : String)
    (p : PatchConfig)
    (h : config.patches.find? (fun q => q.id == pid) = some p) :
    (∀ l, enablePatch config pid ≠ .refused l) ∧
    (p.enabled = true → enablePatch config pid = .alreadyInState) ∧
    (p.enabled = false → disablePatch config pid = .alreadyInState) ∧
    (p.enabled = true →
      config.patches.filter
        (fun q => q.enabled && q.dependencies.contains pid) ≠ [] →
      disablePatch config pid = .refused
        ((config.patches.filter
          (fun q => q.enabled && q.dependencies.contains pid)).map
            (fun q => q.id))) ∧
    (p.enabled = true →
      config.patches.filter
        (fun q => q.enabled && q.dependencies.contains pid) = [] →
      disablePatch config pid = .saved (setEnabledFirst config.patches pid false)) ∧
    (p.enabled = false →
      enablePatch config pid = .saved (setEnabledFirst config.patches pid true)) := by
  refine ⟨?_, ?_, ?_, ?_, ?_, ?_⟩
  · intro l
    unfold enablePatch
    rw [h]
    by_cases he : p.enabled = true
    · simp [he]
    · have : p.enabled = false := by simpa using he
      simp [this]
  · intro he
    unfold enablePatch
    rw [h]
    simp [he]
  · intro he
    unfold disablePatch
    rw [h]
    simp [he]
  · intro he hne
    rcases List.exists_mem_of_ne_nil _ hne with ⟨x, hx⟩
    rcases List.mem_filter.1 hx with ⟨hxmem, hxpred⟩
    simp [disablePatch, h, he]
    exact ⟨x, hxmem, by simpa using hxpred⟩
  · intro he hnil
    simp [disablePatch, h, he, hnil]
    intro a ha hen
    have hpred := List.filter_eq_nil_iff.1 hnil a ha
    simp [hen] at hpred
    exact hpred
  · intro he
    unfold enablePatch
    rw [h]
    simp [he]

/-! ## Helper facts about the concrete scenarios -/

lemma cyc_step_ab : DepStep cycPatches "a" "b" := by
  show ("b" : String) ∈ depsOf cycPatches "a"
  decide

lemma cyc_step_ba : DepStep cycPatches "b" "a" := by
  show ("a" : String) ∈ depsOf cycPatches "b"
  decide

lemma cyc_cycle_a : Relation.TransGen (DepStep cycPatches) "a" "a" :=
  Relation.TransGen.head cyc_step_ab (Relation.TransGen.single cyc_step_ba)

lemma cyc_WF : ∀ x d, Declared cycPatches x → d ∈ depsOf cycPatches x →
    Declared cycPatches d := by
  intro x d hx hd
  rcases hx with ⟨p, hp, hid⟩
  have hp2 : p = cycA ∨ p = cycB := by simpa [cycPatches] using hp
  rcases hp2 with rfl | rfl
  · subst hid
    have hdeps : depsOf cycPatches cycA.id = ["b"] := rfl
    rw [hdeps] at hd
    simp only [List.mem_singleton] at hd
    subst hd
    exact ⟨cycB, by decide, rfl⟩
  · subst hid
    have hdeps : depsOf cycPatches cycB.id = ["a"] := rfl
    rw [hdeps] at hd
    simp only [List.mem_singleton] at hd
    subst hd
    exact ⟨cycA, by decide, rfl⟩

lemma cyc_req_declared : ∀ q ∈ ["a"], Declared cycPatches q := by
  intro q hq
  simp only [List.mem_singleton] at hq
  subst hq
  exact ⟨cycA, by decide, rfl⟩

lemma no_deps_no_cycle :
    ∀ c, ¬ Relation.TransGen (DepStep ([] : List PatchConfig)) c c := by
  intro c h
  cases h with
  | single hstep => exact absurd hstep (by simp [DepStep, depsOf, List.find?])
  | tail h1 hstep => exact absurd hstep (by simp [DepStep, depsOf, List.find?])

lemma ghost_undeclared : ¬ Declared ([] : List PatchConfig) "ghost" := by
  rintro ⟨p, hp, _⟩
  simp at hp

lemma demo_WF : ∀ x d, Declared demoConfig.patches x →
    d ∈ depsOf demoConfig.patches x → Declared demoConfig.patches d := by
  intro x d hx hd
  rcases hx with ⟨p, hp, hid⟩
  have hp2 : p = patchA ∨ p = patchB := by simpa [demoConfig] using hp
  rcases hp2 with rfl | rfl
  · subst hid
    have hdeps : depsOf demoConfig.patches patchA.id = [] := rfl
    rw [hdeps] at hd
    simp at hd
  · subst hid
    have hdeps : depsOf demoConfig.patches patchB.id = ["a"] := rfl
    rw [hdeps] at hd
    simp only [List.mem_singleton] at hd
    subst hd
    exact ⟨patchA, by decide, rfl⟩

lemma demo_step : ∀ x y, DepStep demoConfig.patches x y →
    x = "b" ∧ y = "a" := by
  intro x y h
  have h2 : y ∈ depsOf demoConfig.patches x := h
  by_cases hxb : x = "b"
  · subst hxb
    have hdeps : depsOf demoConfig.patches "b" = ["a"] := rfl
    rw [hdeps] at h2
    simp only [List.mem_singleton] at h2
    exact ⟨rfl, h2⟩
  · by_cases hxa : x = "a"
    · subst hxa
      have hdeps : depsOf demoConfig.patches "a" = [] := rfl
      rw [hdeps] at h2
      simp at h2
    · have hfind : demoConfig.patches.find? (fun p => p.id == x) = none := by
        rw [List.find?_eq_none]
        intro p hp
        have hp2 : p = patchA ∨ p = patchB := by simpa [demoConfig] using hp
        rcases hp2 with rfl | rfl
        · intro hbeq
          have h3 : patchA.id = x := by simpa using hbeq
          exact hxa h3.symm
        · intro hbeq
          have h3 : patchB.id = x := by simpa using hbeq
          exact hxb h3.symm
      have hdeps : depsOf demoConfig.patches x = [] := by
        simp [depsOf, hfind]
      rw [hdeps] at h2
      simp at h2

lemma demo_trans_char : ∀ x y,
    Relation.TransGen (DepStep demoConfig.patches) x y →
    x = "b" ∧ y = "a" := by
  intro x y h
  induction h with
  | single hstep => exact demo_step _ _ hstep
  | tail h1 hstep ih =>
    exact absurd (ih.2 ▸ (demo_step _ _ hstep).1) (by decide)

lemma demo_acyclic :
    ∀ c, ¬ Relation.TransGen (DepStep demoConfig.patches) c c := by
  intro c h
  rcases demo_trans_char c c h with ⟨h1, h2⟩
  rw [h1] at h2
  exact absurd h2 (by decide)

/-! ## Counterexamples

Closed theorems exhibiting, each at one concrete input, the points
where the specification text does not match the code. -/

/-- Counterexample to C2 as stated.  On `treeFoo` the pre-check is
unsatisfied and the dry run succeeds, the real application is performed
producing `treeBar`, the Verifier is still unsatisfied on `treeBar` —
and yet the outcome is the success `applied`, not `failed`: after a
successful `git apply` the source returns `true` without re-running
`checkPatchApplied`. -/
theorem claim_C2_counterexample :
    checkPatchApplied demoEnv.mat treeFoo demoPatch = false ∧
    demoEnv.dryRun treeFoo demoPatch.file = true ∧
    applyPatch demoEnv treeFoo demoPatch = (.applied, treeBar) ∧
    checkPatchApplied demoEnv.mat treeBar demoPatch = false ∧
    ApplyOutcome.applied.success = true ∧
    ApplyOutcome.applied ≠ ApplyOutcome.failed :=
  ⟨rfl, rfl, rfl, rfl, rfl, by decide⟩

/-- Counterexample to C3 as stated.  The first apply of the stale
`demoPatch` succeeds (outcome `applied`), but applying the same patch
again immediately afterwards yields `failed`, not `already-satisfied`:
unconditional two-call idempotence fails because the successful
application did not establish the verification patterns. -/
theorem claim_C3_counterexample :
    (applyPatch demoEnv treeFoo demoPatch).1.success = true ∧
    applyPatch demoEnv treeFoo demoPatch = (.applied, treeBar) ∧
    applyPatch demoEnv treeBar demoPatch = (.failed, treeBar) ∧
    ApplyOutcome.failed ≠ ApplyOutcome.alreadySatisfied ∧
    ApplyOutcome.failed.success = false :=
  ⟨rfl, rfl, rfl, by decide, rfl⟩

/-- Counterexample to C9 as stated.  A declared entry whose pattern
list is empty never consults its target file, so a patch whose only
entry points at a missing file is reported satisfied — the
unconditional `missing file ⇒ not satisfied` clause fails. -/
theorem claim_C9_counterexample :
    checkPatchApplied eqMat missingTree emptyPatternsPatch = true ∧
    missingTree "absent.txt" = .missing ∧
    emptyPatternsPatch.checkApplied.type = "grep" ∧
    (⟨"absent.txt", []⟩ : PatchCheckFile) ∈ emptyPatternsPatch.checkApplied.files :=
  ⟨rfl, rfl, rfl, by decide⟩

/-! ## Witnesses -/

/-- Witness for C1 on the two-patch registry: requesting the enabled
`b` (its prerequisite `a` is disabled and therefore filtered out of the
request) computes the order `[a, b]`, which the claim's properties
hold of. -/
theorem claim_C1_witness :
    computeApplyOrder demoConfig.patches
      ((filterPatches demoConfig none false).map (fun p => p.id)) =
        .ok ["a", "b"] ∧
    (∃ order, computeApplyOrder demoConfig.patches
      ((filterPatches demoConfig none false).map (fun p => p.id)) =
        .ok order ∧
     order.Nodup ∧
     (∀ l1 x l2, order = l1 ++ x :: l2 →
       ∀ d ∈ depsOf demoConfig.patches x, d ∈ l1) ∧
     (∀ y, y ∈ order ↔
       ∃ r ∈ (filterPatches demoConfig none false).map (fun p => p.id),
         Reach demoConfig.patches r y)) :=
  ⟨rfl, claim_C1_resolver_topological_closure demoConfig none false
    demo_WF demo_acyclic⟩

/-- Witness for C2 (amended) on the stale `demoPatch`. -/
theorem claim_C2_witness :
    checkPatchApplied demoEnv.mat treeFoo demoPatch = false ∧
    demoEnv.dryRun treeFoo demoPatch.file = true ∧
    demoEnv.applyArtifact treeFoo demoPatch.file = (true, treeBar) ∧
    (applyPatch demoEnv treeFoo demoPatch = (.applied, treeBar) ∧
     ApplyOutcome.applied.success = true) :=
  ⟨rfl, rfl, rfl, claim_C2_success_without_reverification demoEnv treeFoo
    treeBar demoPatch rfl rfl rfl rfl rfl⟩

/-- Witness for C3 (amended): on the already-satisfied `treeBaz` both
calls short-circuit to `alreadySatisfied` without touching the tree. -/
theorem claim_C3_witness :
    checkPatchApplied demoEnv.mat treeBaz demoPatch = true ∧
    (applyPatch demoEnv treeBaz demoPatch = (.alreadySatisfied, treeBaz) ∧
     applyPatch demoEnv (applyPatch demoEnv treeBaz demoPatch).2 demoPatch =
       (.alreadySatisfied, treeBaz) ∧
     ApplyOutcome.alreadySatisfied.success = true) :=
  ⟨rfl, claim_C3_already_satisfied_short_circuit demoEnv treeBaz demoPatch rfl⟩

/-- Witness for C4 on the cycle a → b → a. -/
theorem claim_C4_witness :
    Relation.TransGen (DepStep cycPatches) "a" "a" ∧
    (∃ c2, computeApplyOrder cycPatches ["a"] = .error (.circular c2) ∧
      Relation.TransGen (DepStep cycPatches) c2 c2) :=
  ⟨cyc_cycle_a, claim_C4_cycle_fatal cycPatches ["a"] "a" "a" cyc_WF
    cyc_req_declared (by simp) Relation.ReflTransGen.refl cyc_cycle_a⟩

/-- Witness for C5: requesting the undeclared id `ghost` against an
empty registry fails with the `Patch not found` error naming it. -/
theorem claim_C5_witness :
    (¬ Declared ([] : List PatchConfig) "ghost") ∧
    (∃ y, computeApplyOrder ([] : List PatchConfig) ["ghost"] =
        .error (.notFound y) ∧
      ¬ Declared ([] : List PatchConfig) y ∧
      (∃ r ∈ ["ghost"], Reach ([] : List PatchConfig) r y) ∧
      (∀ c, RErr.notFound y ≠ RErr.circular c) ∧
      ((∀ w, (∃ r ∈ ["ghost"], Reach ([] : List PatchConfig) r w) →
        ¬ Declared ([] : List PatchConfig) w → w = "ghost") → y = "ghost")) :=
  ⟨ghost_undeclared, claim_C5_unknown_id_fatal [] ["ghost"] "ghost"
    no_deps_no_cycle ghost_undeclared
    ⟨"ghost", by simp, Relation.ReflTransGen.refl⟩⟩

/-- Witness for C6 on the flaky environment: the failed real
application left the expected content behind, the re-check notices and
the outcome is the catch-path success. -/
theorem claim_C6_witness :
    checkPatchApplied flakyEnv.mat treeFoo demoPatch = false ∧
    flakyEnv.applyArtifact treeFoo demoPatch.file = (false, treeBaz) ∧
    (applyPatch flakyEnv treeFoo demoPatch =
      (if checkPatchApplied flakyEnv.mat treeBaz demoPatch
       then (.satisfiedAfterError, treeBaz) else (.failed, treeBaz)) ∧
     ApplyOutcome.satisfiedAfterError.success = true ∧
     ApplyOutcome.failed.success = false) :=
  ⟨rfl, rfl, claim_C6_failed_apply_rechecks_verifier flakyEnv treeFoo treeBaz
    demoPatch rfl rfl rfl (Or.inr ⟨rfl, rfl⟩)⟩

/-- Witness for C7: the first patch of the resolved order fails
(missing artifact) and the second is still attempted and succeeds; the
overall outcome is failure. -/
theorem claim_C7_witness :
    applyPatches batchEnv batchConfig none false treeBaz =
      .ok ([false, true], treeBaz, false) ∧
    (([false, true] : List Bool).length =
      ((["f", "s"] : List String).filter
        (fun pid => (batchConfig.patches.find?
          (fun p => p.id == pid)).isSome)).length ∧
     ((false : Bool) = false ↔ ∃ r ∈ ([false, true] : List Bool), r = false)) :=
  ⟨rfl, claim_C7_attempt_all_fail_iff_any batchEnv batchConfig none false
    treeBaz ["f", "s"] [false, true] treeBaz false rfl rfl⟩

/-- Witness for C8 on the registry where the enabled `y` depends on the
enabled `x`. -/
theorem claim_C8_witness :
    toggleConfig.patches.find? (fun q => q.id == "x") = some basePatch ∧
    ((∀ l, enablePatch toggleConfig "x" ≠ .refused l) ∧
     (basePatch.enabled = true → enablePatch toggleConfig "x" = .alreadyInState) ∧
     (basePatch.enabled = false → disablePatch toggleConfig "x" = .alreadyInState) ∧
     (basePatch.enabled = true →
       toggleConfig.patches.filter
         (fun q => q.enabled && q.dependencies.contains "x") ≠ [] →
       disablePatch toggleConfig "x" = .refused
         ((toggleConfig.patches.filter
           (fun q => q.enabled && q.dependencies.contains "x")).map
             (fun q => q.id))) ∧
     (basePatch.enabled = true →
       toggleConfig.patches.filter
         (fun q => q.enabled && q.dependencies.contains "x") = [] →
       disablePatch toggleConfig "x" =
         .saved (setEnabledFirst toggleConfig.patches "x" false)) ∧
     (basePatch.enabled = false →
       enablePatch toggleConfig "x" =
         .saved (setEnabledFirst toggleConfig.patches "x" true))) :=
  ⟨rfl, claim_C8_disable_guard_enable_free toggleConfig "x" basePatch rfl⟩

/-- Witness for C9 (amended) on `demoPatch` over the all-missing tree. -/
theorem claim_C9_witness :
    demoPatch.checkApplied.type = "grep" ∧
    ((checkPatchApplied eqMat missingTree demoPatch = true ↔
      ∀ f ∈ demoPatch.checkApplied.files, fileOk eqMat missingTree f = true) ∧
     (∀ f ∈ demoPatch.checkApplied.files, f.patterns ≠ [] →
       (missingTree f.path = .missing ∨ missingTree f.path = .unreadable) →
       checkPatchApplied eqMat missingTree demoPatch = false)) :=
  ⟨rfl, claim_C9_verifier_all_entries eqMat missingTree demoPatch rfl⟩

/-- Witness for C10 on the cyclic registry: fuel 3 exceeds the 2
declared ids, so the resolver returns (with the circular error, but it
returns). -/
theorem claim_C10_witness :
    freshCount cycPatches [] < 3 ∧
    (resolveDeps cycPatches 3 "a" [] [] ≠ none ∧
     resolveDeps cycPatches (cycPatches.length + 1) "a" [] [] ≠ none) :=
  ⟨by decide, claim_C10_resolver_terminates cycPatches 3 "a" [] [] (by decide)⟩

end PatcherTools
